import Mathlib

/-!
Verification of the core of the graph rewiring engine
(`src/graph/generation/graph_rewiring.hh`).

Shallow embedding conventions:

* A graph state `GState` holds the `directed` flag, the number of vertices
  and the external edge table `edges : List (Nat × Nat)` indexed by slot.
  The driver snapshots every graph edge into the table before rewiring and
  every strategy keeps the table in sync with the graph (each
  `remove_edge`/`add_edge` pair stores the new descriptor back at the same
  slot), so the multiset of graph edges always equals the multiset of table
  entries and the table is a complete representation of the graph.
* Host-library accessors (`source`, `target`, `is_adjacent`, `in_degree`,
  `out_degree`) are modelled from the spec's data model (spec section 6
  lists them as consumed contracts; their sources are not under `src/`):
  for a directed graph the degrees count occurrences as first/second
  component, for an undirected graph an edge is incident to both endpoints
  and `in_degree = out_degree = number of endpoint occurrences`.
* Randomness is modelled by oracle parameters: every random draw of the
  C++ code (`uniform_int`, `bernoulli`, `uniform_real`, alias-sampler
  output, the random permutations of the driver) becomes an explicit
  argument of the embedded function.  `uniform_int(0, n-1)` applied to a
  draw `r` is modelled as `r % n`.
* Doubles are modelled symbolically by `DVal` (NaN, signed infinity, or a
  finite rational); `numeric_limits<double>::min()` becomes the positive
  rational constant `dblMin`.  `exp(log pf - log pi)` is modelled by the
  exact value `pf / pi`.
-/

/-- Graph state: directedness flag, vertex count, and the external
edge-descriptor table `edges[i] = (source, target)` indexed by slot. -/
structure GState where
  directed : Bool
  nverts : Nat
  edges : List (Nat × Nat)
deriving DecidableEq, Repr

/-- `edges[i]` (out-of-range slots give the dummy edge `(0,0)`). -/
def getE (st : GState) (i : Nat) : Nat × Nat :=
  st.edges.getD i (0, 0)

/-- `source(e, edges, g)` for an EdgeRef `e = (slot, flipped)`. -/
def refSrc (st : GState) (e : Nat × Bool) : Nat :=
  if e.2 then (getE st e.1).2 else (getE st e.1).1

/-- `target(e, edges, g)` for an EdgeRef `e = (slot, flipped)`. -/
def refTgt (st : GState) (e : Nat × Bool) : Nat :=
  if e.2 then (getE st e.1).1 else (getE st e.1).2

/-- Modelled from the spec: host-library adjacency test `is_adjacent(u,v,g)`.
Directed graphs look for an edge `u -> v`; undirected graphs ignore the
orientation of the stored pair. -/
def is_adjacent (st : GState) (u v : Nat) : Bool :=
  if st.directed then st.edges.any (fun e => e.1 == u && e.2 == v)
  else st.edges.any (fun e => (e.1 == u && e.2 == v) || (e.1 == v && e.2 == u))

/-- Modelled from the spec: host-library `out_degree(v,g)`.  For undirected
graphs every endpoint occurrence is counted. -/
def outDeg (st : GState) (v : Nat) : Nat :=
  if st.directed then st.edges.countP (fun e => e.1 == v)
  else st.edges.countP (fun e => e.1 == v) + st.edges.countP (fun e => e.2 == v)

/-- Modelled from the spec: host-library `in_degree(v,g)` (graph-tool's
`in_degreeS`, which coincides with the vertex degree on undirected graphs). -/
def inDeg (st : GState) (v : Nat) : Nat :=
  if st.directed then st.edges.countP (fun e => e.2 == v)
  else st.edges.countP (fun e => e.1 == v) + st.edges.countP (fun e => e.2 == v)

/-- `swap_edge::swap_target(e, te, edges, edge_index, g)`: swap the target of
slot `e` with the (oriented) target of EdgeRef `te`; the replacement edges are
stored back at the two slots.  No-op when `e = te.first`. -/
def swap_target (st : GState) (e : Nat) (te : Nat × Bool) : GState :=
  if e = te.1 then st
  else
    let s_e := (getE st e).1
    let t_e := (getE st e).2
    let s_te := refSrc st te
    let t_te := refTgt st te
    let ne : Nat × Nat := (s_e, t_te)
    let nte : Nat × Nat := if te.2 then (t_e, s_te) else (s_te, t_e)
    { st with edges := (st.edges.set e ne).set te.1 nte }

/-- `swap_edge::parallel_check_target(e, te, edges, g)`. -/
def parallel_check_target (st : GState) (e : Nat) (te : Nat × Bool) : Bool :=
  let s := (getE st e).1
  let t := (getE st e).2
  let nt := refTgt st te
  let te_s := refSrc st te
  if is_adjacent st s nt then true
  else if is_adjacent st te_s t then true
  else false

/-- `RewireStrategyBase::operator()(ei, self_loops, parallel_edges)` with the
strategy-supplied proposal `et` (the value returned by `get_target_edge(ei)`)
made explicit, and the `update_edge` hook `upd` acting on the strategy-local
state `ss : σ`.  Returns (success, graph state, strategy state). -/
def rewireBaseStep {σ : Type} (upd : GState → σ → Nat → Bool → σ)
    (st : GState) (ss : σ) (ei : Nat) (et : Nat × Bool)
    (self_loops parallel_edges : Bool) : Bool × GState × σ :=
  if !self_loops &&
      ((getE st ei).1 == refTgt st et || (getE st ei).2 == refSrc st et) then
    (false, st, ss)
  else if !parallel_edges && !(et.1 == ei) && parallel_check_target st ei et then
    (false, st, ss)
  else if ei ≠ et.1 then
    let ss1 := upd st ss ei false
    let ss2 := upd st ss1 et.1 false
    let st2 := swap_target st ei et
    let ss3 := upd st2 ss2 ei true
    let ss4 := upd st2 ss3 et.1 true
    (true, st2, ss4)
  else (false, st, ss)

/-- The trivial `update_edge` hook of the Random, Correlated and
Probabilistic strategies. -/
def trivialUpd : GState → Unit → Nat → Bool → Unit := fun _ _ _ _ => ()

/-! ### List helper lemmas -/

theorem countP_set_eq {α : Type} (p : α → Bool) :
    ∀ (l : List α) (i : Nat) (a d : α), i < l.length →
      (l.set i a).countP p + (if p (l.getD i d) then 1 else 0)
        = l.countP p + (if p a then 1 else 0)
  | [], i, _, _, h => by simp at h
  | x :: xs, 0, a, d, _ => by
      by_cases h1 : p a <;> by_cases h2 : p x <;>
        simp [List.countP_cons, h1, h2]
  | x :: xs, i + 1, a, d, h => by
      have ih := countP_set_eq p xs i a d (by simpa using h)
      by_cases h2 : p x <;>
        simp only [List.set, List.getD_cons_succ, List.countP_cons, h2] <;>
        omega

theorem getD_set_self {α : Type} (l : List α) (i : Nat) (a d : α)
    (h : i < l.length) : (l.set i a).getD i d = a := by
  induction l generalizing i with
  | nil => simp at h
  | cons x xs ih =>
    cases i with
    | zero => simp [List.set]
    | succ n => simpa [List.set, List.getD_cons_succ] using ih n (by simpa using h)

theorem getD_set_ne {α : Type} (l : List α) (i j : Nat) (a d : α)
    (h : i ≠ j) : (l.set i a).getD j d = l.getD j d := by
  induction l generalizing i j with
  | nil => simp [List.set]
  | cons x xs ih =>
    cases i with
    | zero =>
      cases j with
      | zero => exact absurd rfl h
      | succ m => simp [List.set, List.getD_cons_succ]
    | succ n =>
      cases j with
      | zero => simp [List.set]
      | succ m =>
        simp only [List.set, List.getD_cons_succ]
        exact ih n m (fun hnm => h (by simpa using congrArg Nat.succ hnm))

theorem countP_set2_eq {α : Type} (p : α → Bool) (l : List α) (i j : Nat)
    (a b d : α) (hi : i < l.length) (hj : j < l.length) (hij : i ≠ j) :
    ((l.set i a).set j b).countP p
        + (if p (l.getD i d) then 1 else 0) + (if p (l.getD j d) then 1 else 0)
      = l.countP p + (if p a then 1 else 0) + (if p b then 1 else 0) := by
  have h1 := countP_set_eq p l i a d hi
  have h2 := countP_set_eq p (l.set i a) j b d (by simpa using hj)
  rw [getD_set_ne l i j a d hij] at h2
  omega

theorem getD_mem {α : Type} (l : List α) (i : Nat) (d : α) (h : i < l.length) :
    l.getD i d ∈ l := by
  induction l generalizing i with
  | nil => simp at h
  | cons x xs ih =>
    cases i with
    | zero => simp
    | succ n =>
      simp only [List.getD_cons_succ]
      exact List.mem_cons_of_mem x (ih n (by simpa using h))

theorem getD_append_left {α : Type} (l l' : List α) (i : Nat) (d : α)
    (h : i < l.length) : (l ++ l').getD i d = l.getD i d := by
  induction l generalizing i with
  | nil => simp at h
  | cons x xs ih =>
    cases i with
    | zero => simp
    | succ n =>
      simp only [List.cons_append, List.getD_cons_succ]
      exact ih n (by simpa using h)

theorem getD_append_last {α : Type} (l : List α) (a d : α) :
    (l ++ [a]).getD l.length d = a := by
  induction l with
  | nil => simp
  | cons x xs ih => simpa [List.getD_cons_succ] using ih

theorem getD_dropLast {α : Type} (l : List α) (i : Nat) (d : α)
    (h : i < l.length - 1) : l.dropLast.getD i d = l.getD i d := by
  induction l generalizing i with
  | nil => simp at h
  | cons x xs ih =>
    cases xs with
    | nil => simp at h
    | cons y ys =>
      cases i with
      | zero => simp [List.dropLast]
      | succ n =>
        simp only [List.dropLast, List.getD_cons_succ]
        exact ih n (by simpa using h)

theorem getLastD_eq_getD {α : Type} (l : List α) (d : α) :
    l.getLastD d = l.getD (l.length - 1) d := by
  induction l with
  | nil => rfl
  | cons x xs ih =>
    cases xs with
    | nil => rfl
    | cons y ys =>
      simpa [List.getLastD, Nat.succ_sub_one, List.getD_cons_succ] using ih

theorem countP_dropLast_eq {α : Type} (p : α → Bool) :
    ∀ (l : List α) (d : α), l ≠ [] →
      l.dropLast.countP p + (if p (l.getD (l.length - 1) d) then 1 else 0)
        = l.countP p
  | [], _, h => absurd rfl h
  | [x], d, _ => by by_cases hp : p x <;> simp [List.countP_cons, hp]
  | x :: y :: ys, d, _ => by
      have ih := countP_dropLast_eq p (y :: ys) d (by simp)
      have hdl : (x :: y :: ys).dropLast = x :: (y :: ys).dropLast := rfl
      rw [hdl, List.countP_cons, List.countP_cons]
      have hlen : (x :: y :: ys).length - 1 = (y :: ys).length - 1 + 1 := by
        simp
      rw [hlen, List.getD_cons_succ]
      by_cases hp : p x <;> by_cases hq : p ((y :: ys).getD ((y :: ys).length - 1) d) <;>
        simp only [hp, hq, if_true, if_false] at ih ⊢ <;> omega

/-! ### C1: accepted moves of the edge-pair framework preserve all degrees -/

theorem swap_target_preserves_deg (st : GState) (ei : Nat) (et : Nat × Bool)
    (hei : ei < st.edges.length) (het : et.1 < st.edges.length)
    (hne : ei ≠ et.1) (hdir : st.directed = true → et.2 = false) (v : Nat) :
    inDeg (swap_target st ei et) v = inDeg st v ∧
    outDeg (swap_target st ei et) v = outDeg st v := by
  have hdirected : (swap_target st ei et).directed = st.directed := by
    unfold swap_target; split <;> rfl
  rcases hA : getE st ei with ⟨a1, a2⟩
  rcases hB : getE st et.1 with ⟨b1, b2⟩
  have hgei : st.edges.getD ei (0,0) = (a1, a2) := hA
  have hget : st.edges.getD et.1 (0,0) = (b1, b2) := hB
  have hswgen : (swap_target st ei et).edges
      = (st.edges.set ei ((getE st ei).1, refTgt st et)).set et.1
          (if et.2 then ((getE st ei).2, refSrc st et)
           else (refSrc st et, (getE st ei).2)) := by
    unfold swap_target
    rw [if_neg hne]
  have unflipped : et.2 = false →
      inDeg (swap_target st ei et) v = inDeg st v ∧
      outDeg (swap_target st ei et) v = outDeg st v := by
    intro hf
    have hRT : refTgt st et = b2 := by simp [refTgt, hf, hB]
    have hRS : refSrc st et = b1 := by simp [refSrc, hf, hB]
    rw [hA, hRS, hRT, hf] at hswgen
    simp only [Bool.false_eq_true, if_false] at hswgen
    have hsrc := countP_set2_eq (fun e => e.1 == v) st.edges ei et.1 (a1, b2)
      (b1, a2) (0,0) hei het hne
    have htgt := countP_set2_eq (fun e => e.2 == v) st.edges ei et.1 (a1, b2)
      (b1, a2) (0,0) hei het hne
    rw [hgei, hget] at hsrc htgt
    simp only [beq_iff_eq] at hsrc htgt
    have hc1 : ((st.edges.set ei (a1, b2)).set et.1 (b1, a2)).countP
        (fun e => e.1 == v) = st.edges.countP (fun e => e.1 == v) := by
      split_ifs at hsrc <;> omega
    have hc2 : ((st.edges.set ei (a1, b2)).set et.1 (b1, a2)).countP
        (fun e => e.2 == v) = st.edges.countP (fun e => e.2 == v) := by
      split_ifs at htgt <;> omega
    constructor
    · simp [inDeg, hdirected, hswgen, hc1, hc2]
    · simp [outDeg, hdirected, hswgen, hc1, hc2]
  cases hd : st.directed with
  | true => exact unflipped (hdir hd)
  | false =>
    cases hf : et.2 with
    | false => exact unflipped hf
    | true =>
      have hRT : refTgt st et = b1 := by simp [refTgt, hf, hB]
      have hRS : refSrc st et = b2 := by simp [refSrc, hf, hB]
      rw [hA, hRS, hRT, hf] at hswgen
      simp only [if_true] at hswgen
      have hsrc := countP_set2_eq (fun e => e.1 == v) st.edges ei et.1 (a1, b1)
        (a2, b2) (0,0) hei het hne
      have htgt := countP_set2_eq (fun e => e.2 == v) st.edges ei et.1 (a1, b1)
        (a2, b2) (0,0) hei het hne
      rw [hgei, hget] at hsrc htgt
      simp only [beq_iff_eq] at hsrc htgt
      have hsum : ((st.edges.set ei (a1, b1)).set et.1 (a2, b2)).countP
            (fun e => e.1 == v)
          + ((st.edges.set ei (a1, b1)).set et.1 (a2, b2)).countP
            (fun e => e.2 == v)
          = st.edges.countP (fun e => e.1 == v)
            + st.edges.countP (fun e => e.2 == v) := by
        split_ifs at hsrc htgt <;> omega
      constructor
      · have hL : inDeg (swap_target st ei et) v
            = ((st.edges.set ei (a1, b1)).set et.1 (a2, b2)).countP
                (fun e => e.1 == v)
              + ((st.edges.set ei (a1, b1)).set et.1 (a2, b2)).countP
                (fun e => e.2 == v) := by
          simp [inDeg, hdirected, hd, hswgen]
        have hR : inDeg st v
            = st.edges.countP (fun e => e.1 == v)
              + st.edges.countP (fun e => e.2 == v) := by
          simp [inDeg, hd]
        omega
      · have hL : outDeg (swap_target st ei et) v
            = ((st.edges.set ei (a1, b1)).set et.1 (a2, b2)).countP
                (fun e => e.1 == v)
              + ((st.edges.set ei (a1, b1)).set et.1 (a2, b2)).countP
                (fun e => e.2 == v) := by
          simp [outDeg, hdirected, hd, hswgen]
        have hR : outDeg st v
            = st.edges.countP (fun e => e.1 == v)
              + st.edges.countP (fun e => e.2 == v) := by
          simp [outDeg, hd]
        omega

/-- If the base framework accepts, the graph after the move is
`swap_target st ei et`, the strategy state is the four-hook chain, and the
slots were distinct. -/
theorem rewireBaseStep_true_elim {σ : Type} (upd : GState → σ → Nat → Bool → σ)
    (st : GState) (ss : σ) (ei : Nat) (et : Nat × Bool) (sl pe : Bool)
    (h : (rewireBaseStep upd st ss ei et sl pe).1 = true) :
    ei ≠ et.1 ∧
    (rewireBaseStep upd st ss ei et sl pe).2.1 = swap_target st ei et ∧
    (rewireBaseStep upd st ss ei et sl pe).2.2
      = upd (swap_target st ei et)
          (upd (swap_target st ei et) (upd st (upd st ss ei false) et.1 false)
            ei true) et.1 true := by
  rw [rewireBaseStep] at h ⊢
  split at h
  · exact absurd h (by simp)
  · split at h
    · exact absurd h (by simp)
    · split at h
      · rename_i hne
        refine ⟨hne, ?_⟩
        rw [if_neg ‹¬_›]
        rw [if_neg ‹¬_›]
        rw [if_pos hne]
        exact ⟨rfl, rfl⟩
      · exact absurd h (by simp)

/-! ### The driver (`graph_rewire::operator()`) -/

/-- Inner loop of one sweep: invoke the strategy's propose on each slot of
the (already permuted) list, accumulating the failure count and recording
the visited slots.  `σ` is the combined mutable state of a strategy. -/
def runEdges {σ : Type} (strat : σ → Nat → Bool × σ) :
    List Nat → σ → σ × Nat × List Nat
  | [], s => (s, 0, [])
  | ei :: rest, s =>
    let r1 := strat s ei
    let r2 := runEdges strat rest r1.2
    (r2.1, (if r1.1 then 0 else 1) + r2.2.1, ei :: r2.2.2)

/-- `graph_rewire::operator()` iteration structure: one entry of `perms` per
outer iteration, modelling the freshly drawn random permutation of the edge
slots; with `no_sweep` the inner loop breaks after the first slot.  Returns
the final state, `pcount`, and the list of slots on which the strategy's
propose was invoked.  Persistence retries re-run the same slot, so they do
not add visited slots; the embedding performs one propose per visit (the
`persist = false` driver). -/
def runRewire {σ : Type} (strat : σ → Nat → Bool × σ) :
    List (List Nat) → Bool → σ → σ × Nat × List Nat
  | [], _, s => (s, 0, [])
  | perm :: ps, nsw, s =>
    let r1 := runEdges strat (if nsw then perm.take 1 else perm) s
    let r2 := runRewire strat ps nsw r1.1
    (r2.1, r1.2.1 + r2.2.1, r1.2.2 ++ r2.2.2)

/-! ### Symbolic doubles and probability sanitization -/

/-- Symbolic model of a C++ `double`: NaN, a signed infinity, or a finite
value (modelled exactly as a rational). -/
inductive DVal where
  | nan : DVal
  | inf : Bool → DVal
  | fin : ℚ → DVal
deriving DecidableEq

/-- `isnan`. -/
def isnanD : DVal → Bool := fun p => match p with | .nan => true | _ => false

/-- `isinf`. -/
def isinfD : DVal → Bool := fun p => match p with | .inf _ => true | _ => false

/-- `p < 0` on a double (false on NaN). -/
def negD : DVal → Bool := fun p => match p with
  | .fin q => decide (q < 0)
  | _ => false

/-- The rational carried by a finite double. -/
def finVal : DVal → ℚ := fun p => match p with | .fin q => q | _ => 0

/-- `numeric_limits<double>::min()`, the smallest positive normalized
double, `2 ^ (-1022)`. -/
def dblMin : ℚ := 1 / 2 ^ 1022

/-- `ProbabilisticRewireStrategy::get_prob` (the uncached path; with
`cache = true` the constructor stores exactly this value for every block
pair appearing in the edge set, so cached lookups agree). -/
def prob_get_prob {β : Type} (cp : β → β → DVal) (s t : β) : ℚ :=
  let p := cp s t
  let p1 : ℚ := if isnanD p || isinfD p || negD p then 0 else finVal p
  if p1 = 0 then dblMin else p1

/-- The value stored into `_probs` (and used as alias-sampler weight) by the
`AliasProbabilisticRewireStrategy` constructor; `get_prob` of that strategy
looks these values up. -/
def alias_get_prob {β : Type} (cp : β → β → DVal) (s t : β) : ℚ :=
  let p := cp s t
  let p1 : ℚ := if isnanD p || isinfD p || negD p then 0 else finVal p
  if p1 = 0 then dblMin else p1

/-- The weight handed to the block-pair alias sampler by the
`TradBlockRewireStrategy` constructor (no coercion of zero). -/
def trad_weight {β : Type} (cp : β → β → DVal) (s t : β) : ℚ :=
  let p := cp s t
  if isnanD p || isinfD p || negD p then 0 else finVal p

/-- The spec's first sanitization step: NaN, Inf or negative becomes 0. -/
def sanitize1 (p : DVal) : ℚ := match p with
  | .nan => 0
  | .inf _ => 0
  | .fin q => if q < 0 then 0 else q

/-- The spec's second sanitization step: an exact 0 becomes
`numeric_limits<double>::min()`. -/
def sanitize2 (p : DVal) : ℚ := if sanitize1 p = 0 then dblMin else sanitize1 p

/-! ### Strategy proposal functions -/

/-- The Metropolis-Hastings accept/reject tail shared verbatim by the
Probabilistic and Alias `get_target_edge`: accept when `pf >= pi`; reject
(return the self pair) when `pf = 0`; otherwise accept iff the
`uniform_real(0,1)` draw `r` satisfies `r <= pf/pi` (`exp(log pf - log pi)`
is modelled by the exact ratio). -/
def mhChoose (ei : Nat) (ep : Nat × Bool) (piv pfv r : ℚ) : Nat × Bool :=
  if piv ≤ pfv then ep
  else if pfv = 0 then (ei, false)
  else if pfv / piv < r then (ei, false)
  else ep

/-- `RandomRewireStrategy::get_target_edge`: `r` models the
`uniform_int(0, m-1)` draw and `coin` the fair coin (used only when the
graph is undirected). -/
def randomGetTarget (st : GState) (r : Nat) (coin : Bool) : Nat × Bool :=
  (r % st.edges.length, if st.directed then false else coin)

/-- `DegreeBlock::get_block`: the (in-degree, out-degree) pair of a vertex
in the current graph state. -/
def degp (st : GState) (v : Nat) : Nat × Nat := (inDeg st v, outDeg st v)

/-- One step of the `CorrelatedRewireStrategy` constructor loop: index slot
`ei` under the degree pair of its target and, for undirected graphs, also
the flipped orientation under the degree pair of its source. -/
def correlatedSlotAdd (st : GState) (B : Nat × Nat → List (Nat × Bool))
    (ei : Nat) : Nat × Nat → List (Nat × Bool) :=
  let td := degp st (getE st ei).2
  let B1 := fun b => if b = td then B td ++ [(ei, false)] else B b
  if st.directed then B1
  else
    let sd := degp st (getE st ei).1
    fun b => if b = sd then B1 sd ++ [(ei, true)] else B1 b

/-- `_edges_by_target` as built by the `CorrelatedRewireStrategy`
constructor (buckets keyed by degree pair; the `CorrProb` and `BlockDeg`
parameters of the constructor are ignored by the source). -/
def correlatedInit (st : GState) : Nat × Nat → List (Nat × Bool) :=
  (List.range st.edges.length).foldl (correlatedSlotAdd st) (fun _ => [])

/-- `CorrelatedRewireStrategy::get_target_edge`: uniform sample (draw `r`)
from the bucket of the degree pair of `target(edges[ei])`. -/
def correlatedGetTarget (st : GState) (B : Nat × Nat → List (Nat × Bool))
    (ei : Nat) (r : Nat) : Nat × Bool :=
  let elist := B (degp st (getE st ei).2)
  elist.getD (r % elist.length) (0, false)

/-- The candidate EdgeRef drawn by
`ProbabilisticRewireStrategy::get_target_edge`: a uniform slot (draw `rs`)
and, for undirected graphs, a fair orientation coin. -/
def probCandidate (st : GState) (rs : Nat) (coin : Bool) : Nat × Bool :=
  (rs % st.edges.length, if st.directed then false else coin)

/-- `pi = p(bs,bt) * p(bs',bt')`: the probability of the current pair of
edges (slot `ei` and candidate `ep`), via `get_prob` with sanitization
`gp`. -/
def pairPi {β : Type} (gp : β → β → ℚ) (blockOf : Nat → β) (st : GState)
    (ei : Nat) (ep : Nat × Bool) : ℚ :=
  gp (blockOf (getE st ei).1) (blockOf (getE st ei).2)
    * gp (blockOf (refSrc st ep)) (blockOf (refTgt st ep))

/-- `pf = p(bs,bt') * p(bs',bt)`: the probability of the pair after the
hypothetical swap. -/
def pairPf {β : Type} (gp : β → β → ℚ) (blockOf : Nat → β) (st : GState)
    (ei : Nat) (ep : Nat × Bool) : ℚ :=
  gp (blockOf (getE st ei).1) (blockOf (refTgt st ep))
    * gp (blockOf (refSrc st ep)) (blockOf (getE st ei).2)

/-- `ProbabilisticRewireStrategy::get_target_edge`: `rs` models the
uniform slot draw, `coin` the undirected orientation coin, `r` the
`uniform_real(0,1)` acceptance draw. -/
def probabilisticGetTarget {β : Type} (cp : β → β → DVal) (blockOf : Nat → β)
    (st : GState) (ei : Nat) (rs : Nat) (coin : Bool) (r : ℚ) : Nat × Bool :=
  let ep := probCandidate st rs coin
  mhChoose ei ep (pairPi (prob_get_prob cp) blockOf st ei ep)
    (pairPf (prob_get_prob cp) blockOf st ei ep) r

/-- The incremental bookkeeping state of
`AliasProbabilisticRewireStrategy`: `_in_edges`, `_out_edges` (unordered
maps defaulting to the empty bucket) and the position vectors `_in_pos`,
`_out_pos`. -/
structure AliasState (β : Type) where
  in_edges : β → List Nat
  out_edges : β → List Nat
  in_pos : Nat → Nat
  out_pos : Nat → Nat

/-- `AliasProbabilisticRewireStrategy::update_edge(ei, insert)`.  On insert,
append `ei` to the bucket of its (new) target block and record its position
(and, for undirected graphs, likewise for the source block in `_out_edges`).
On remove, only for undirected graphs, swap-and-pop `ei` out of the
`_in_edges` bucket of its current target block using `_in_pos`; for
directed graphs remove does nothing. -/
def aliasUpdateEdge {β : Type} [DecidableEq β] (blockOf : Nat → β)
    (st : GState) (as : AliasState β) (ei : Nat) (ins : Bool) : AliasState β :=
  if ins then
    let d := blockOf (getE st ei).2
    let as1 : AliasState β :=
      { as with
        in_edges := fun b => if b = d then as.in_edges d ++ [ei] else as.in_edges b,
        in_pos := fun k => if k = ei then (as.in_edges d).length else as.in_pos k }
    if st.directed then as1
    else
      let d2 := blockOf (getE st ei).1
      { as1 with
        out_edges := fun b => if b = d2 then as1.out_edges d2 ++ [ei] else as1.out_edges b,
        out_pos := fun k => if k = ei then (as1.out_edges d2).length else as1.out_pos k }
  else
    if st.directed then as
    else
      let d := blockOf (getE st ei).2
      let l := as.in_edges d
      let j := as.in_pos ei
      let back := l.getLastD 0
      { as with
        in_pos := fun k => if k = back then j else as.in_pos k,
        in_edges := fun b => if b = d then (l.set j back).dropLast else as.in_edges b }

/-- The all-empty bookkeeping state. -/
def aliasEmptyState {β : Type} : AliasState β :=
  ⟨fun _ => [], fun _ => [], fun _ => 0, fun _ => 0⟩

/-- The bucket structure built by the `AliasProbabilisticRewireStrategy`
constructor (its loop body is the insert hook applied to every slot). -/
def aliasInit {β : Type} [DecidableEq β] (blockOf : Nat → β) (st : GState) :
    AliasState β :=
  (List.range st.edges.length).foldl
    (fun as i => aliasUpdateEdge blockOf st as i true) aliasEmptyState

/-- The distinct blocks appearing as endpoints of the edge set (the
constructor's `deg_set`, hence the item list of every alias sampler). -/
def aliasItems {β : Type} [DecidableEq β] (blockOf : Nat → β) (st : GState) :
    List β :=
  st.edges.foldl (fun acc e =>
    let acc1 := if blockOf e.1 ∈ acc then acc else acc ++ [blockOf e.1]
    if blockOf e.2 ∈ acc1 then acc1 else acc1 ++ [blockOf e.2]) []

/-- `AliasProbabilisticRewireStrategy::get_target_edge`.  `nt` models the
alias-sampler draw from `sampler[s_deg]` (an element of the item set),
`rb` the uniform index draw into the chosen bucket, `coinO` the
`bernoulli(|in|/(|in|+|out|))` draw (forced when its parameter is 0 or 1),
and `r` the acceptance draw.  Indexing an empty bucket with
`uniform_int(0, size-1)` (size_t underflow, out-of-bounds read) is
undefined behaviour in the source and is modelled as `none`. -/
def aliasGetTargetEdge {β : Type} [DecidableEq β] (cp : β → β → DVal)
    (blockOf : Nat → β) (st : GState) (as : AliasState β) (ei : Nat)
    (nt : β) (rb : Nat) (coinO : Bool) (r : ℚ) : Option (Nat × Bool) :=
  let ies := as.in_edges nt
  let oes := as.out_edges nt
  let coin := if oes.isEmpty then true else if ies.isEmpty then false else coinO
  let cand : Option (Nat × Bool) :=
    if st.directed || coin then
      if ies.isEmpty then none
      else some (ies.getD (rb % ies.length) 0, false)
    else
      if oes.isEmpty then none
      else some (oes.getD (rb % oes.length) 0, true)
  match cand with
  | none => none
  | some ep =>
    some (mhChoose ei ep (pairPi (alias_get_prob cp) blockOf st ei ep)
      (pairPf (alias_get_prob cp) blockOf st ei ep) r)

/-- `ErdosRewireStrategy::operator()`.  `(s, t)` is the vertex pair with
which the rejection-sampling loop exits (the loop exits iff
`s ≠ t ∨ self_loops`); afterwards the strategy rejects on a parallel edge
and otherwise replaces slot `ei` by `(s, t)`. -/
def erdos_propose (st : GState) (ei : Nat) (s t : Nat)
    (self_loops parallel_edges : Bool) : Bool × GState :=
  if !parallel_edges && is_adjacent st s t then (false, st)
  else (true, { st with edges := st.edges.set ei (s, t) })

/-- `_vertices` as built by the `TradBlockRewireStrategy` constructor:
vertices bucketed by block. -/
def tradInit {β : Type} [DecidableEq β] (blockOf : Nat → β) (st : GState) :
    β → List Nat :=
  (List.range st.nverts).foldl
    (fun vb v => fun b => if b = blockOf v then vb (blockOf v) ++ [v] else vb b)
    (fun _ => [])

/-- `TradBlockRewireStrategy::operator()`.  `(bs, bt)` models the block-pair
alias-sampler draw (a pair of occupied blocks), `rs`, `rt` the uniform
draws inside the two vertex buckets. -/
def trad_propose {β : Type} [DecidableEq β] (blockOf : Nat → β) (st : GState)
    (vb : β → List Nat) (ei : Nat) (bs bt : β) (rs rt : Nat)
    (self_loops parallel_edges : Bool) : Bool × GState :=
  let svs := vb bs
  let tvs := vb bt
  let s := svs.getD (rs % svs.length) 0
  let t := tvs.getD (rt % tvs.length) 0
  if !self_loops && s == t then (false, st)
  else if !parallel_edges && is_adjacent st s t then (false, st)
  else (true, { st with edges := st.edges.set ei (s, t) })

/-! ### Bucket invariants -/

/-- Number of occurrences of `x` in a list of slots. -/
def cnt (x : Nat) (l : List Nat) : Nat := l.countP (fun y => y == x)

/-- Validity of the Correlated strategy's (never-updated) buckets with
respect to the current graph state: every indexed orientation lies in the
bucket of its target's degree pair, refers to a real slot, and is unflipped
when the graph is directed. -/
def corrBucketsOk (st : GState) (B : Nat × Nat → List (Nat × Bool)) : Prop :=
  ∀ b p, p ∈ B b → p.1 < st.edges.length ∧ degp st (refTgt st p) = b ∧
    (st.directed = true → p.2 = false)

/-- Exactness of the Alias strategy's `_in_edges`/`_in_pos` bookkeeping on
the slots selected by `active`: bucket `b` contains exactly one occurrence
of every active slot whose target block is `b` (and nothing else), and
`_in_pos` records each active slot's position in its bucket. -/
def bucketOk {β : Type} [DecidableEq β] (blockOf : Nat → β) (st : GState)
    (as : AliasState β) (active : Nat → Bool) : Prop :=
  (∀ (b : β) (i : Nat), cnt i (as.in_edges b)
      = if i < st.edges.length ∧ active i = true ∧ blockOf (getE st i).2 = b
        then 1 else 0) ∧
  (∀ i, i < st.edges.length → active i = true →
    as.in_pos i < (as.in_edges (blockOf (getE st i).2)).length ∧
    (as.in_edges (blockOf (getE st i).2)).getD (as.in_pos i) 0 = i)

/-- The full `_in_edges`/`_in_pos` exactness invariant (all slots active). -/
def inBucketInv {β : Type} [DecidableEq β] (blockOf : Nat → β) (st : GState)
    (as : AliasState β) : Prop :=
  bucketOk blockOf st as (fun _ => true)

/-- `RandomRewireStrategy` proposal composed with the base framework. -/
def random_propose (st : GState) (ei : Nat) (r : Nat) (coin : Bool)
    (self_loops parallel_edges : Bool) : Bool × GState :=
  let res := rewireBaseStep trivialUpd st () ei (randomGetTarget st r coin)
    self_loops parallel_edges
  (res.1, res.2.1)

/-! ### Frame lemmas for `swap_target` -/

theorem swap_target_directed (st : GState) (ei : Nat) (et : Nat × Bool) :
    (swap_target st ei et).directed = st.directed := by
  unfold swap_target; split <;> rfl

theorem swap_target_length (st : GState) (ei : Nat) (et : Nat × Bool) :
    (swap_target st ei et).edges.length = st.edges.length := by
  unfold swap_target; split
  · rfl
  · simp

theorem swap_target_edges (st : GState) (ei : Nat) (et : Nat × Bool)
    (hne : ei ≠ et.1) :
    (swap_target st ei et).edges
      = (st.edges.set ei ((getE st ei).1, refTgt st et)).set et.1
          (if et.2 then ((getE st ei).2, refSrc st et)
           else (refSrc st et, (getE st ei).2)) := by
  unfold swap_target
  rw [if_neg hne]

theorem swap_target_frame (st : GState) (ei : Nat) (et : Nat × Bool)
    (hne : ei ≠ et.1) (j : Nat) (hj1 : j ≠ ei) (hj2 : j ≠ et.1) :
    getE (swap_target st ei et) j = getE st j := by
  rw [getE, swap_target_edges st ei et hne,
    getD_set_ne _ _ _ _ _ (fun h => hj2 h.symm),
    getD_set_ne _ _ _ _ _ (fun h => hj1 h.symm)]
  rfl

theorem swap_target_getE_fst (st : GState) (ei : Nat) (et : Nat × Bool)
    (hne : ei ≠ et.1) (hei : ei < st.edges.length) :
    getE (swap_target st ei et) ei = ((getE st ei).1, refTgt st et) := by
  rw [getE, swap_target_edges st ei et hne,
    getD_set_ne _ _ _ _ _ (fun h => hne h.symm),
    getD_set_self _ _ _ _ (by simpa using hei)]

theorem swap_target_getE_snd (st : GState) (ei : Nat) (et : Nat × Bool)
    (hne : ei ≠ et.1) (het : et.1 < st.edges.length) :
    getE (swap_target st ei et) et.1
      = (if et.2 then ((getE st ei).2, refSrc st et)
         else (refSrc st et, (getE st ei).2)) := by
  rw [getE, swap_target_edges st ei et hne,
    getD_set_self _ _ _ _ (by simpa using het)]

/-- C1: for every accepted move of the edge-pair framework (used by the
Random, Correlated, Probabilistic and Alias strategies) — that is, whenever
`RewireStrategyBase::operator()` returns true after performing
`swap_edge::swap_target` — the in-degree and the out-degree of every vertex
are unchanged, in directed and in undirected graphs.  (The proposal `et`
refers to a real slot, and in directed graphs every strategy proposes an
unflipped EdgeRef.) -/
theorem c1_accepted_moves_preserve_degrees {σ : Type}
    (upd : GState → σ → Nat → Bool → σ) (st : GState) (ss : σ) (ei : Nat)
    (et : Nat × Bool) (sl pe : Bool)
    (hei : ei < st.edges.length) (het : et.1 < st.edges.length)
    (hflip : st.directed = true → et.2 = false)
    (hacc : (rewireBaseStep upd st ss ei et sl pe).1 = true) :
    ∀ v, inDeg (rewireBaseStep upd st ss ei et sl pe).2.1 v = inDeg st v ∧
      outDeg (rewireBaseStep upd st ss ei et sl pe).2.1 v = outDeg st v := by
  obtain ⟨hne, hst, -⟩ := rewireBaseStep_true_elim upd st ss ei et sl pe hacc
  intro v
  rw [hst]
  exact swap_target_preserves_deg st ei et hei het hne hflip v

/-- Witness for C1: the accepted swap of the two directed edges 0→1, 2→3
(slot 0 with slot 1) keeps the degrees of vertex 1. -/
theorem c1_accepted_moves_preserve_degrees_witness :
    inDeg (rewireBaseStep trivialUpd ⟨true, 4, [(0,1),(2,3)]⟩ () 0 (1, false)
        true true).2.1 1 = inDeg ⟨true, 4, [(0,1),(2,3)]⟩ 1 ∧
    outDeg (rewireBaseStep trivialUpd ⟨true, 4, [(0,1),(2,3)]⟩ () 0 (1, false)
        true true).2.1 1 = outDeg ⟨true, 4, [(0,1),(2,3)]⟩ 1 :=
  c1_accepted_moves_preserve_degrees trivialUpd ⟨true, 4, [(0,1),(2,3)]⟩ ()
    0 (1, false) true true (by decide) (by decide) (fun _ => rfl) (by decide) 1

/-- C8: the parallel-edge conflict predicate returns true iff
`is_adjacent(src(edges[e]), dst(te))` or `is_adjacent(src(te), dst(edges[e]))`
holds, evaluated in the current (pre-swap) graph state. -/
theorem c8_parallel_check_characterization (st : GState) (e : Nat)
    (te : Nat × Bool) :
    parallel_check_target st e te
      = (is_adjacent st (getE st e).1 (refTgt st te)
         || is_adjacent st (refSrc st te) (getE st e).2) := by
  unfold parallel_check_target
  by_cases h1 : is_adjacent st (getE st e).1 (refTgt st te) <;>
    by_cases h2 : is_adjacent st (refSrc st te) (getE st e).2 <;>
    simp [h1, h2]

/-- C10: `swap_target` is a no-op when `e = te.first`; otherwise it changes
the edge table only at slots `e` and `te.first`, and the graph's edge
multiset only by replacing the two edges stored at those slots (stated via
occurrence counts). -/
theorem c10_swap_target_frame (st : GState) (e : Nat) (te : Nat × Bool)
    (he : e < st.edges.length) (hte : te.1 < st.edges.length) :
    (e = te.1 → swap_target st e te = st) ∧
    (e ≠ te.1 → ∀ j, j ≠ e → j ≠ te.1 →
      getE (swap_target st e te) j = getE st j) ∧
    (e ≠ te.1 → ∀ x : Nat × Nat,
      (swap_target st e te).edges.countP (fun y => y == x)
          + (if getE st e = x then 1 else 0)
          + (if getE st te.1 = x then 1 else 0)
        = st.edges.countP (fun y => y == x)
          + (if ((getE st e).1, refTgt st te) = x then 1 else 0)
          + (if (if te.2 then ((getE st e).2, refSrc st te)
                 else (refSrc st te, (getE st e).2)) = x then 1 else 0)) := by
  refine ⟨?_, ?_, ?_⟩
  · intro h; unfold swap_target; rw [if_pos h]
  · intro hne j hj1 hj2; exact swap_target_frame st e te hne j hj1 hj2
  · intro hne x
    have h := countP_set2_eq (fun y => y == x) st.edges e te.1
      ((getE st e).1, refTgt st te)
      (if te.2 then ((getE st e).2, refSrc st te)
       else (refSrc st te, (getE st e).2)) (0,0) he hte hne
    simp only [beq_iff_eq] at h
    rw [swap_target_edges st e te hne]
    simpa only [beq_iff_eq] using h

/-- Witness for C10: in the graph 0→1, 2→3, 4→5, swapping slots 0 and 1
leaves slot 2 untouched. -/
theorem c10_swap_target_frame_witness :
    getE (swap_target ⟨true, 6, [(0,1),(2,3),(4,5)]⟩ 0 (1, false)) 2 = (4, 5) := by
  have h := (c10_swap_target_frame ⟨true, 6, [(0,1),(2,3),(4,5)]⟩ 0 (1, false)
    (by decide) (by decide)).2.1 (by decide) 2 (by decide) (by decide)
  rw [h]
  decide

/-- C9: for every strategy, a proposal that returns false leaves the graph
state, the external edge table, and the strategy-local bookkeeping exactly
as they were: all constraint checks happen before any mutation.  Stated for
the edge-pair framework (Random, Correlated, Probabilistic, Alias with
arbitrary hook), for Erdős–Rényi, and for the Traditional strategy. -/
theorem c9_rejection_mutates_nothing {σ β : Type} [DecidableEq β]
    (upd : GState → σ → Nat → Bool → σ) (st : GState) (ss : σ) (ei : Nat)
    (et : Nat × Bool) (sl pe : Bool) (s t : Nat) (blockOf : Nat → β)
    (vb : β → List Nat) (bs bt : β) (rs rt : Nat) :
    ((rewireBaseStep upd st ss ei et sl pe).1 = false →
      (rewireBaseStep upd st ss ei et sl pe).2.1 = st ∧
      (rewireBaseStep upd st ss ei et sl pe).2.2 = ss) ∧
    ((erdos_propose st ei s t sl pe).1 = false →
      (erdos_propose st ei s t sl pe).2 = st) ∧
    ((trad_propose blockOf st vb ei bs bt rs rt sl pe).1 = false →
      (trad_propose blockOf st vb ei bs bt rs rt sl pe).2 = st) := by
  refine ⟨?_, ?_, ?_⟩
  · intro h
    unfold rewireBaseStep at h ⊢
    split at h
    · rw [if_pos ‹_›]; exact ⟨rfl, rfl⟩
    · rw [if_neg ‹_›]
      split at h
      · rw [if_pos ‹_›]; exact ⟨rfl, rfl⟩
      · rw [if_neg ‹_›]
        split at h
        · exact absurd h (by simp)
        · rw [if_neg ‹_›]; exact ⟨rfl, rfl⟩
  · intro h
    unfold erdos_propose at h ⊢
    split at h
    · rw [if_pos ‹_›]
    · exact absurd h (by simp)
  · intro h
    unfold trad_propose at h ⊢
    dsimp only at h ⊢
    split at h
    · rw [if_pos ‹_›]
    · rw [if_neg ‹_›]
      split at h
      · rw [if_pos ‹_›]
      · exact absurd h (by simp)

/-- Witness for C9: the self-swap proposal `et = (ei, false)` is rejected by
the base framework and leaves the one-edge graph unchanged. -/
theorem c9_rejection_mutates_nothing_witness :
    (rewireBaseStep trivialUpd ⟨true, 2, [(0,1)]⟩ () 0 (0, false) true true).2.1
      = ⟨true, 2, [(0,1)]⟩ :=
  ((c9_rejection_mutates_nothing trivialUpd ⟨true, 2, [(0,1)]⟩ () 0 (0, false)
      true true 0 0 (fun v : Nat => v) (fun _ => []) 0 0 0 0).1 (by decide)).1

/-! ### C5: probability sanitization -/

theorem sanitize_step1_eq (p : DVal) :
    (if isnanD p || isinfD p || negD p then (0:ℚ) else finVal p) = sanitize1 p := by
  cases p with
  | nan => rfl
  | inf b => rfl
  | fin q => by_cases hq : q < 0 <;>
      simp [isnanD, isinfD, negD, finVal, sanitize1, hq]

theorem sanitize_pipeline_eq (p : DVal) :
    (if (if isnanD p || isinfD p || negD p then (0:ℚ) else finVal p) = 0
     then dblMin
     else if isnanD p || isinfD p || negD p then (0:ℚ) else finVal p)
      = sanitize2 p := by
  rw [sanitize_step1_eq, sanitize2]

/-- C5: in the Probabilistic and Alias strategies every probability used is
`corr_prob(bs, bt)` sanitized in two steps — NaN, Inf, or negative values
become 0, and then an exact 0 becomes `numeric_limits<double>::min()` (a
positive value) — while the Traditional strategy applies only the first
step to its alias-sampler weights, so a 0 stays 0. -/
theorem c5_probability_sanitization {β : Type} (cp : β → β → DVal)
    (s t : β) (q : ℚ) (b : Bool) :
    prob_get_prob cp s t = sanitize2 (cp s t) ∧
    alias_get_prob cp s t = sanitize2 (cp s t) ∧
    trad_weight cp s t = sanitize1 (cp s t) ∧
    sanitize1 DVal.nan = 0 ∧
    sanitize1 (DVal.inf b) = 0 ∧
    sanitize1 (DVal.fin q) = (if q < 0 then 0 else q) ∧
    sanitize2 (DVal.fin 0) = dblMin ∧
    sanitize1 (DVal.fin 0) = 0 ∧
    0 < dblMin := by
  have hpos : (0:ℚ) < dblMin := by
    rw [dblMin]
    exact div_pos one_pos (pow_pos (by norm_num) 1022)
  refine ⟨sanitize_pipeline_eq (cp s t), sanitize_pipeline_eq (cp s t),
    sanitize_step1_eq (cp s t), rfl, rfl, rfl, ?_, ?_, hpos⟩
  · simp [sanitize2, sanitize1]
  · simp [sanitize1]

/-! ### C3: Metropolis-Hastings acceptance rule -/

/-- C3: with `pi = p(bs,bt)·p(bs',bt')` and `pf = p(bs,bt')·p(bs',bt)`, the
Probabilistic and Alias `get_target_edge` accept (return the candidate)
when `pf ≥ pi`; when `pf < pi` and `pf = 0` they return the self pair
`(ei, false)` (rejection); otherwise they return the candidate exactly when
the uniform draw `r` satisfies `r ≤ pf/pi` — the candidate with probability
`pf/pi` and the self pair with probability `1 - pf/pi`.  The last two
clauses anchor the rule to the two strategies' proposal functions. -/
theorem c3_mh_acceptance_rule {β : Type} [DecidableEq β] (cp : β → β → DVal)
    (blockOf : Nat → β) (st : GState) (as : AliasState β) (ei ek : Nat)
    (ep : Nat × Bool) (piv pfv r : ℚ) (rs rb : Nat) (coin coinO : Bool)
    (nt : β) :
    (pfv ≥ piv → mhChoose ek ep piv pfv r = ep) ∧
    (pfv < piv → pfv = 0 → mhChoose ek ep piv pfv r = (ek, false)) ∧
    (0 < pfv → pfv < piv → r ≤ pfv / piv → mhChoose ek ep piv pfv r = ep) ∧
    (0 < pfv → pfv < piv → pfv / piv < r →
      mhChoose ek ep piv pfv r = (ek, false)) ∧
    (probabilisticGetTarget cp blockOf st ei rs coin r
      = mhChoose ei (probCandidate st rs coin)
          (pairPi (prob_get_prob cp) blockOf st ei (probCandidate st rs coin))
          (pairPf (prob_get_prob cp) blockOf st ei (probCandidate st rs coin))
          r) ∧
    (st.directed = true → as.in_edges nt ≠ [] →
      aliasGetTargetEdge cp blockOf st as ei nt rb coinO r
        = some (mhChoose ei
            ((as.in_edges nt).getD (rb % (as.in_edges nt).length) 0, false)
            (pairPi (alias_get_prob cp) blockOf st ei
              ((as.in_edges nt).getD (rb % (as.in_edges nt).length) 0, false))
            (pairPf (alias_get_prob cp) blockOf st ei
              ((as.in_edges nt).getD (rb % (as.in_edges nt).length) 0, false))
            r)) := by
  refine ⟨?_, ?_, ?_, ?_, rfl, ?_⟩
  · intro hge; unfold mhChoose; rw [if_pos hge]
  · intro hlt h0; unfold mhChoose
    rw [if_neg (not_le.mpr hlt), if_pos h0]
  · intro h0 hlt hr; unfold mhChoose
    rw [if_neg (not_le.mpr hlt), if_neg (ne_of_gt h0), if_neg (not_lt.mpr hr)]
  · intro h0 hlt hr; unfold mhChoose
    rw [if_neg (not_le.mpr hlt), if_neg (ne_of_gt h0), if_pos hr]
  · intro hdir hne
    unfold aliasGetTargetEdge
    dsimp only
    rw [hdir]
    simp only [Bool.true_or, if_true]
    rw [if_neg (by simp [List.isEmpty_iff, hne])]

/-- Witness for C3: with `pi = 1`, `pf = 1/2` and draw `r = 3/4 > pf/pi`,
the move is rejected. -/
theorem c3_mh_acceptance_rule_witness :
    mhChoose 7 (3, true) 1 (1/2) (3/4) = (7, false) :=
  (c3_mh_acceptance_rule (fun _ _ : Nat => DVal.fin 1) (fun v => v)
      ⟨true, 0, []⟩ aliasEmptyState 0 7 (3, true) 1 (1/2) (3/4) 0 0 false false
      0).2.2.2.1 (by norm_num) (by norm_num) (by norm_num)

/-! ### C6: driver visit counts -/

theorem runEdges_visited {σ : Type} (strat : σ → Nat → Bool × σ) :
    ∀ (l : List Nat) (s : σ), (runEdges strat l s).2.2 = l
  | [], _ => rfl
  | ei :: rest, s => by
      unfold runEdges
      simp [runEdges_visited strat rest]

theorem runRewire_visited_sweep {σ : Type} (strat : σ → Nat → Bool × σ) :
    ∀ (perms : List (List Nat)) (s : σ),
      (runRewire strat perms false s).2.2 = perms.join
  | [], _ => by simp [runRewire]
  | perm :: ps, s => by
      unfold runRewire
      simp [runEdges_visited, runRewire_visited_sweep strat ps, List.join]

theorem runRewire_visited_nosweep {σ : Type} (strat : σ → Nat → Bool × σ) :
    ∀ (perms : List (List Nat)) (s : σ), (∀ p ∈ perms, p ≠ []) →
      (runRewire strat perms true s).2.2.length = perms.length
  | [], _, _ => rfl
  | perm :: ps, s, h => by
      have hp : perm ≠ [] := h perm (by simp)
      obtain ⟨a, rest, hperm⟩ := List.exists_cons_of_ne_nil hp
      subst hperm
      have ih := runRewire_visited_nosweep strat ps ((strat s a).2)
        (fun p hps => h p (by simp [hps]))
      unfold runRewire
      simp [runEdges, List.take_succ_cons, List.take_zero, ih]

theorem count_range_self : ∀ (m j : Nat), j < m → (List.range m).count j = 1 := by
  intro m
  induction m with
  | zero => intro j hj; omega
  | succ n ih =>
    intro j hj
    rw [List.range_succ, List.count_append]
    by_cases hjn : j = n
    · subst hjn
      have h0 : (List.range j).count j = 0 :=
        List.count_eq_zero_of_not_mem (by simp)
      simp [h0]
    · have hjlt : j < n := by omega
      rw [ih j hjlt]
      simp [hjn]

/-- C6 (amended): with `no_sweep = false` and `n_iter = k` the driver
invokes the strategy's propose on exactly `k·m` slots, visiting each of the
`m` slots once per sweep in a freshly drawn random permutation; with
`no_sweep = true` and `m ≥ 1` it invokes propose on exactly `k` slots (one
per outer iteration, persistence retries not counted).  With `m = 0` the
`no_sweep` driver makes no proposal at all (see the counterexample). -/
theorem c6_driver_visit_counts {σ : Type} (strat : σ → Nat → Bool × σ)
    (s : σ) (perms : List (List Nat)) (k m : Nat)
    (hk : perms.length = k) (hp : ∀ p ∈ perms, p.Perm (List.range m)) :
    ((runRewire strat perms false s).2.2 = perms.join ∧
     (runRewire strat perms false s).2.2.length = k * m ∧
     (∀ p ∈ perms, ∀ j, j < m → p.count j = 1)) ∧
    (1 ≤ m → (runRewire strat perms true s).2.2.length = k) := by
  subst hk
  have hlen : ∀ p ∈ perms, p.length = m := by
    intro p hpp
    rw [(hp p hpp).length_eq, List.length_range]
  refine ⟨⟨runRewire_visited_sweep strat perms s, ?_, ?_⟩, ?_⟩
  · rw [runRewire_visited_sweep strat perms s]
    induction perms with
    | nil => simp
    | cons q qs ih =>
      simp only [List.join_cons, List.length_append, List.length_cons]
      rw [hlen q (by simp), ih (fun p hpp => hp p (by simp [hpp]))
        (fun p hpp => hlen p (by simp [hpp]))]
      ring
  · intro p hpp j hj
    rw [(hp p hpp).count_eq, count_range_self m j hj]
  · intro hm
    exact runRewire_visited_nosweep strat perms s (fun p hpp => by
      have := hlen p hpp
      intro hnil
      rw [hnil] at this
      simp at this
      omega)

/-- C6 counterexample: on a graph with `m = 0` edges, `no_sweep = true` and
`n_iter = 1`, the driver performs 0 proposals, not 1 — the claim's
`no_sweep` clause fails for `m = 0`. -/
theorem c6_counterexample :
    ([] : List Nat).Perm (List.range 0) ∧
    (runRewire (fun (s : Unit) _ => (false, s)) [[]] true ()).2.2.length = 0 ∧
    (0 : Nat) ≠ 1 :=
  ⟨by simp, rfl, by decide⟩

/-- Witness for C6: one sweep over one edge visits exactly `1 * 1` slots. -/
theorem c6_driver_visit_counts_witness :
    (runRewire (fun (s : Unit) _ => (false, s)) [[0]] false ()).2.2.length
      = 1 * 1 :=
  (c6_driver_visit_counts (fun (s : Unit) _ => (false, s)) () [[0]] 1 1 rfl
    (by
      intro p hpp
      rw [List.mem_singleton] at hpp
      subst hpp
      rw [List.range_succ, List.range_zero, List.nil_append])).1.2.1

/-! ### C7: single-edge graphs -/

/-- C7: on the one-edge graph, Random and Correlated can only propose slot 0
(= the rewired slot), the base framework rejects any proposal whose slot
equals `ei`, and the driver ends with `pcount = n_iter` — but for the Alias
strategy on a directed single edge 0→1 with `DegreeBlock`, the source block
`(0,1)` belongs to the sampler's item set while its `_in_edges` bucket is
empty, so `get_target_edge` indexes an empty vector with
`uniform_int(0, size-1)` (out-of-bounds, modelled as `none`) instead of
rejecting. -/
theorem c7_single_edge_behaviour :
    ((0, 1) ∈ aliasItems (fun v => degp ⟨true, 2, [(0,1)]⟩ v)
      ⟨true, 2, [(0,1)]⟩) ∧
    ((aliasInit (fun v => degp ⟨true, 2, [(0,1)]⟩ v)
        ⟨true, 2, [(0,1)]⟩).in_edges (0, 1) = []) ∧
    (aliasGetTargetEdge (fun _ _ => DVal.fin 1)
        (fun v => degp ⟨true, 2, [(0,1)]⟩ v) ⟨true, 2, [(0,1)]⟩
        (aliasInit (fun v => degp ⟨true, 2, [(0,1)]⟩ v) ⟨true, 2, [(0,1)]⟩)
        0 (0, 1) 0 true (1/2) = none) ∧
    (randomGetTarget ⟨true, 2, [(0,1)]⟩ 5 true = (0, false)) ∧
    (correlatedGetTarget ⟨true, 2, [(0,1)]⟩
        (correlatedInit ⟨true, 2, [(0,1)]⟩) 0 3 = (0, false)) ∧
    ((rewireBaseStep trivialUpd ⟨true, 2, [(0,1)]⟩ () 0 (0, false) true
        true).1 = false) ∧
    ((runRewire (fun s ei => random_propose s ei 9 false false false)
        [[0], [0], [0]] true ⟨true, 2, [(0,1)]⟩).2.1 = 3) := by
  refine ⟨by decide, by decide, ?_, by decide, by decide, by decide, by decide⟩
  rfl

/-! ### C4: Correlated strategy buckets -/

theorem correlatedSlotAdd_ok (st : GState) (B : Nat × Nat → List (Nat × Bool))
    (n : Nat) (hn : n < st.edges.length) (hB : corrBucketsOk st B) :
    corrBucketsOk st (correlatedSlotAdd st B n) := by
  have hstep : ∀ (B' : Nat × Nat → List (Nat × Bool)) (key : Nat × Nat)
      (q : Nat × Bool), corrBucketsOk st B' →
      (q.1 < st.edges.length ∧ degp st (refTgt st q) = key ∧
        (st.directed = true → q.2 = false)) →
      corrBucketsOk st (fun b => if b = key then B' key ++ [q] else B' b) := by
    intro B' key q hB' hq b p hp
    dsimp only at hp
    by_cases hb : b = key
    · subst hb
      rw [if_pos rfl] at hp
      rcases List.mem_append.mp hp with hmem | hmem
      · exact hB' b p hmem
      · rw [List.mem_singleton] at hmem
        subst hmem
        exact hq
    · rw [if_neg hb] at hp
      exact hB' b p hp
  unfold correlatedSlotAdd
  by_cases hdd : st.directed = true
  · rw [if_pos hdd]
    exact hstep B (degp st (getE st n).2) (n, false) hB ⟨hn, rfl, fun _ => rfl⟩
  · rw [if_neg hdd]
    have hB1 := hstep B (degp st (getE st n).2) (n, false) hB
      ⟨hn, rfl, fun _ => rfl⟩
    exact hstep _ (degp st (getE st n).1) (n, true) hB1
      ⟨hn, rfl, fun h => absurd h hdd⟩

theorem correlatedInit_ok (st : GState) : corrBucketsOk st (correlatedInit st) := by
  have h : ∀ n, n ≤ st.edges.length →
      corrBucketsOk st ((List.range n).foldl (correlatedSlotAdd st)
        (fun _ => [])) := by
    intro n
    induction n with
    | zero =>
      intro _ b p hp
      simp [List.range_zero] at hp
    | succ k ih =>
      intro hk
      rw [List.range_succ, List.foldl_append, List.foldl_cons, List.foldl_nil]
      exact correlatedSlotAdd_ok st _ k (by omega) (ih (by omega))
  exact h st.edges.length le_rfl

theorem correlatedGetTarget_mem (st : GState)
    (B : Nat × Nat → List (Nat × Bool)) (ei r : Nat)
    (hne : B (degp st (getE st ei).2) ≠ []) :
    correlatedGetTarget st B ei r ∈ B (degp st (getE st ei).2) := by
  unfold correlatedGetTarget
  dsimp only
  exact getD_mem _ _ _ (Nat.mod_lt _ (List.length_pos.mpr hne))

theorem correlated_move_preserves (st : GState)
    (B : Nat × Nat → List (Nat × Bool)) (hB : corrBucketsOk st B)
    (ei : Nat) (et : Nat × Bool) (sl pe : Bool)
    (hei : ei < st.edges.length)
    (hmem : et ∈ B (degp st (getE st ei).2))
    (hacc : (rewireBaseStep trivialUpd st () ei et sl pe).1 = true) :
    corrBucketsOk (rewireBaseStep trivialUpd st () ei et sl pe).2.1 B ∧
    (∀ j, degp (rewireBaseStep trivialUpd st () ei et sl pe).2.1
        (getE (rewireBaseStep trivialUpd st () ei et sl pe).2.1 j).1
      = degp st (getE st j).1 ∧
      degp (rewireBaseStep trivialUpd st () ei et sl pe).2.1
        (getE (rewireBaseStep trivialUpd st () ei et sl pe).2.1 j).2
      = degp st (getE st j).2) := by
  obtain ⟨hne, hst, -⟩ := rewireBaseStep_true_elim trivialUpd st () ei et sl pe hacc
  obtain ⟨het, hkey, hflip⟩ := hB _ et hmem
  rw [hst]
  have hdeg : ∀ v, degp (swap_target st ei et) v = degp st v := by
    intro v
    obtain ⟨h1, h2⟩ := swap_target_preserves_deg st ei et hei het hne hflip v
    rw [degp, degp, h1, h2]
  have hdirected := swap_target_directed st ei et
  have hlen := swap_target_length st ei et
  have hfst := swap_target_getE_fst st ei et hne hei
  have hsnd := swap_target_getE_snd st ei et hne het
  constructor
  · intro b p hp
    obtain ⟨hp1, hp2, hp3⟩ := hB b p hp
    refine ⟨by rw [hlen]; exact hp1, ?_, by rw [hdirected]; exact hp3⟩
    by_cases hpe : p.1 = ei
    · cases hpf : p.2 with
      | false =>
        have hT : refTgt (swap_target st ei et) p = refTgt st et := by
          simp [refTgt, hpf, hpe, hfst]
        rw [hT, hdeg, hkey]
        simp only [refTgt, hpf, hpe, Bool.false_eq_true, if_false] at hp2
        exact hp2
      | true =>
        have hT : refTgt (swap_target st ei et) p = (getE st ei).1 := by
          simp [refTgt, hpf, hpe, hfst]
        rw [hT, hdeg]
        simp only [refTgt, hpf, hpe, if_true] at hp2
        exact hp2
    · by_cases hpt : p.1 = et.1
      · cases hef : et.2 with
        | false =>
          have hget2 := hsnd
          rw [hef] at hget2
          simp only [Bool.false_eq_true, if_false] at hget2
          have hrs : refSrc st et = (getE st et.1).1 := by simp [refSrc, hef]
          have hrt : refTgt st et = (getE st et.1).2 := by simp [refTgt, hef]
          cases hpf : p.2 with
          | false =>
            have hT : refTgt (swap_target st ei et) p = (getE st ei).2 := by
              simp [refTgt, hpf, hpt, hget2]
            rw [hT, hdeg]
            simp only [refTgt, hpf, hpt, Bool.false_eq_true, if_false] at hp2
            rw [← hp2, ← hrt, hkey]
          | true =>
            have hT : refTgt (swap_target st ei et) p = (getE st et.1).1 := by
              simp [refTgt, hpf, hpt, hget2, hrs]
            rw [hT, hdeg]
            simp only [refTgt, hpf, hpt, if_true] at hp2
            exact hp2
        | true =>
          have hget2 := hsnd
          rw [hef] at hget2
          simp only [if_true] at hget2
          have hrs : refSrc st et = (getE st et.1).2 := by simp [refSrc, hef]
          have hrt : refTgt st et = (getE st et.1).1 := by simp [refTgt, hef]
          cases hpf : p.2 with
          | false =>
            have hT : refTgt (swap_target st ei et) p = (getE st et.1).2 := by
              simp [refTgt, hpf, hpt, hget2, hrs]
            rw [hT, hdeg]
            simp only [refTgt, hpf, hpt, Bool.false_eq_true, if_false] at hp2
            exact hp2
          | true =>
            have hT : refTgt (swap_target st ei et) p = (getE st ei).2 := by
              simp [refTgt, hpf, hpt, hget2]
            rw [hT, hdeg]
            simp only [refTgt, hpf, hpt, if_true] at hp2
            rw [← hp2, ← hrt, hkey]
      · have hT : refTgt (swap_target st ei et) p = refTgt st p := by
          rw [refTgt, refTgt, swap_target_frame st ei et hne p.1 hpe hpt]
        rw [hT, hdeg]
        exact hp2
  · intro j
    by_cases hj1 : j = ei
    · subst hj1
      constructor
      · simp only [hfst]
        rw [hdeg]
      · simp only [hfst]
        rw [hdeg, hkey]
    · by_cases hj2 : j = et.1
      · subst hj2
        cases hef : et.2 with
        | false =>
          have hget2 := hsnd
          rw [hef] at hget2
          simp only [Bool.false_eq_true, if_false] at hget2
          have hrs : refSrc st et = (getE st et.1).1 := by simp [refSrc, hef]
          have hrt : refTgt st et = (getE st et.1).2 := by simp [refTgt, hef]
          constructor
          · simp only [hget2, hrs]
            rw [hdeg]
          · simp only [hget2]
            rw [hdeg, ← hkey, hrt]
        | true =>
          have hget2 := hsnd
          rw [hef] at hget2
          simp only [if_true] at hget2
          have hrs : refSrc st et = (getE st et.1).2 := by simp [refSrc, hef]
          have hrt : refTgt st et = (getE st et.1).1 := by simp [refTgt, hef]
          constructor
          · simp only [hget2]
            rw [hdeg, ← hkey, hrt]
          · simp only [hget2, hrs]
            rw [hdeg]
      · rw [swap_target_frame st ei et hne j hj1 hj2]
        constructor <;> rw [hdeg]

/-- C4 (amended): the Correlated strategy's buckets are keyed by the
degree pair of the target (the code hardcodes `DegreeBlock`-style degree
pairs, ignoring the installed block abstraction): the constructor
establishes the bucket invariant, `get_target_edge(ei)` samples from the
bucket of `degp(target(edges[ei]))`, and every accepted move keeps the
invariant and leaves the per-slot pair `(degp(src), degp(dst))` of every
slot unchanged (hence the multiset of degree-pair pairs is invariant). -/
theorem c4_correlated_degree_bucket_invariance (st : GState) :
    corrBucketsOk st (correlatedInit st) ∧
    (∀ B ei r, B (degp st (getE st ei).2) ≠ [] →
      correlatedGetTarget st B ei r ∈ B (degp st (getE st ei).2)) ∧
    (∀ B ei et sl pe, corrBucketsOk st B → ei < st.edges.length →
      et ∈ B (degp st (getE st ei).2) →
      (rewireBaseStep trivialUpd st () ei et sl pe).1 = true →
      corrBucketsOk (rewireBaseStep trivialUpd st () ei et sl pe).2.1 B ∧
      (∀ j, degp (rewireBaseStep trivialUpd st () ei et sl pe).2.1
          (getE (rewireBaseStep trivialUpd st () ei et sl pe).2.1 j).1
        = degp st (getE st j).1 ∧
        degp (rewireBaseStep trivialUpd st () ei et sl pe).2.1
          (getE (rewireBaseStep trivialUpd st () ei et sl pe).2.1 j).2
        = degp st (getE st j).2)) :=
  ⟨correlatedInit_ok st,
   fun B ei r hne => correlatedGetTarget_mem st B ei r hne,
   fun B ei et sl pe hB hei hmem hacc =>
     correlated_move_preserves st B hB ei et sl pe hei hmem hacc⟩

/-- C4 counterexample: on the directed graph 0→1, 2→3 with the active block
abstraction `PropertyBlock(identity)`, the Correlated strategy (which
buckets by degree pair regardless of the abstraction) can sample the
EdgeRef `(1, false)` whose target's property block (3) differs from the
property block of `target(edges[0])` (1), the move is accepted, and the
multiset of property-block pairs changes: the pair (0,1) disappears. -/
theorem c4_counterexample :
    correlatedGetTarget ⟨true, 4, [(0,1),(2,3)]⟩
        (correlatedInit ⟨true, 4, [(0,1),(2,3)]⟩) 0 1 = (1, false) ∧
    (fun v : Nat => v) (refTgt ⟨true, 4, [(0,1),(2,3)]⟩ (1, false))
      ≠ (fun v : Nat => v) ((getE ⟨true, 4, [(0,1),(2,3)]⟩ 0).2) ∧
    (rewireBaseStep trivialUpd ⟨true, 4, [(0,1),(2,3)]⟩ () 0 (1, false)
      true true).1 = true ∧
    (rewireBaseStep trivialUpd ⟨true, 4, [(0,1),(2,3)]⟩ () 0 (1, false)
        true true).2.1.edges.countP (fun e => e == (0,1))
      ≠ (⟨true, 4, [(0,1),(2,3)]⟩ : GState).edges.countP (fun e => e == (0,1)) := by
  refine ⟨by decide, by decide, by decide, by decide⟩

/-- Witness for C4: applying the amended theorem to the directed graph
0→1, 2→3 with the constructor-built buckets and the accepted move swapping
slots 0 and 1: the degree pair of the target of slot 0 is unchanged. -/
theorem c4_correlated_degree_bucket_invariance_witness :
    degp (rewireBaseStep trivialUpd ⟨true, 4, [(0,1),(2,3)]⟩ () 0 (1, false)
        true true).2.1
      (getE (rewireBaseStep trivialUpd ⟨true, 4, [(0,1),(2,3)]⟩ () 0 (1, false)
        true true).2.1 0).2
    = degp ⟨true, 4, [(0,1),(2,3)]⟩ (getE ⟨true, 4, [(0,1),(2,3)]⟩ 0).2 :=
  (((c4_correlated_degree_bucket_invariance ⟨true, 4, [(0,1),(2,3)]⟩).2.2
    (correlatedInit ⟨true, 4, [(0,1),(2,3)]⟩) 0 (1, false) true true
    (c4_correlated_degree_bucket_invariance ⟨true, 4, [(0,1),(2,3)]⟩).1
    (by decide) (by decide) (by decide)).2 0).2

/-! ### C2: Alias strategy bucket bookkeeping -/

theorem aliasInsert_in_edges {β : Type} [DecidableEq β] (blockOf : Nat → β)
    (st : GState) (as : AliasState β) (ei : Nat) :
    (aliasUpdateEdge blockOf st as ei true).in_edges
      = fun b => if b = blockOf (getE st ei).2
          then as.in_edges (blockOf (getE st ei).2) ++ [ei]
          else as.in_edges b := by
  unfold aliasUpdateEdge
  rw [if_pos rfl]
  dsimp only
  split <;> rfl

theorem aliasInsert_in_pos {β : Type} [DecidableEq β] (blockOf : Nat → β)
    (st : GState) (as : AliasState β) (ei : Nat) :
    (aliasUpdateEdge blockOf st as ei true).in_pos
      = fun k => if k = ei
          then (as.in_edges (blockOf (getE st ei).2)).length
          else as.in_pos k := by
  unfold aliasUpdateEdge
  rw [if_pos rfl]
  dsimp only
  split <;> rfl

theorem aliasRemove_in_edges {β : Type} [DecidableEq β] (blockOf : Nat → β)
    (st : GState) (as : AliasState β) (ei : Nat) (hdir : st.directed = false) :
    (aliasUpdateEdge blockOf st as ei false).in_edges
      = fun b => if b = blockOf (getE st ei).2
          then (((as.in_edges (blockOf (getE st ei).2)).set (as.in_pos ei)
                 ((as.in_edges (blockOf (getE st ei).2)).getLastD 0)).dropLast)
          else as.in_edges b := by
  unfold aliasUpdateEdge
  rw [if_neg (by simp), hdir]
  rw [if_neg (by simp)]

theorem aliasRemove_in_pos {β : Type} [DecidableEq β] (blockOf : Nat → β)
    (st : GState) (as : AliasState β) (ei : Nat) (hdir : st.directed = false) :
    (aliasUpdateEdge blockOf st as ei false).in_pos
      = fun k => if k = (as.in_edges (blockOf (getE st ei).2)).getLastD 0
          then as.in_pos ei
          else as.in_pos k := by
  unfold aliasUpdateEdge
  rw [if_neg (by simp), hdir]
  rw [if_neg (by simp)]

theorem cnt_append_singleton (x e : Nat) (l : List Nat) :
    cnt x (l ++ [e]) = cnt x l + (if e = x then 1 else 0) := by
  rw [cnt, cnt, List.countP_append]
  congr 1
  by_cases h : e = x <;> simp [List.countP_cons, h]

theorem cnt_swap_pop (l : List Nat) (j : Nat) (x : Nat) (hj : j < l.length) :
    cnt x ((l.set j (l.getLastD 0)).dropLast) + (if l.getD j 0 = x then 1 else 0)
      = cnt x l := by
  have hlen : (l.set j (l.getLastD 0)).length = l.length := by simp
  have hne2 : l.set j (l.getLastD 0) ≠ [] := by
    intro h
    have hh : (l.set j (l.getLastD 0)).length = 0 := by rw [h]; rfl
    rw [hlen] at hh
    omega
  have hback : (l.set j (l.getLastD 0)).getD
      ((l.set j (l.getLastD 0)).length - 1) 0 = l.getLastD 0 := by
    rw [hlen]
    by_cases hjl : j = l.length - 1
    · rw [← hjl]
      exact getD_set_self _ _ _ _ hj
    · rw [getD_set_ne _ _ _ _ _ hjl]
      exact (getLastD_eq_getD l 0).symm
  have h1 := countP_set_eq (fun y => y == x) l j (l.getLastD 0) 0 hj
  have h2 := countP_dropLast_eq (fun y => y == x) (l.set j (l.getLastD 0)) 0 hne2
  rw [hback] at h2
  simp only [beq_iff_eq, cnt] at h1 h2 ⊢
  split_ifs at h1 h2 ⊢ <;> omega

theorem bucketOk_congr {β : Type} [DecidableEq β] (blockOf : Nat → β)
    (st : GState) (as : AliasState β) (a1 a2 : Nat → Bool)
    (h : ∀ k, a1 k = a2 k) (hok : bucketOk blockOf st as a1) :
    bucketOk blockOf st as a2 := by
  obtain ⟨hc, hp⟩ := hok
  refine ⟨?_, ?_⟩
  · intro b i
    rw [← h i]
    exact hc b i
  · intro i hi hai
    exact hp i hi ((h i).trans hai)

theorem bucketOk_frame {β : Type} [DecidableEq β] (blockOf : Nat → β)
    (st st' : GState) (as : AliasState β) (act : Nat → Bool)
    (hlen : st'.edges.length = st.edges.length)
    (hfr : ∀ i, i < st.edges.length → act i = true → getE st' i = getE st i)
    (hok : bucketOk blockOf st as act) : bucketOk blockOf st' as act := by
  obtain ⟨hc, hp⟩ := hok
  refine ⟨?_, ?_⟩
  · intro b i
    rw [hc b i]
    by_cases h1 : i < st.edges.length
    · by_cases h2 : act i = true
      · rw [hfr i h1 h2, hlen]
      · rw [if_neg (fun hcond => h2 hcond.2.1), if_neg (fun hcond => h2 hcond.2.1)]
    · rw [if_neg (fun hcond => h1 hcond.1), if_neg (fun hcond => h1 (hlen ▸ hcond.1))]
  · intro i hi hai
    rw [hlen] at hi
    rw [hfr i hi hai]
    exact hp i hi hai

theorem aliasInsert_ok {β : Type} [DecidableEq β] (blockOf : Nat → β)
    (st : GState) (as : AliasState β) (act : Nat → Bool) (ei : Nat)
    (hok : bucketOk blockOf st as act) (hei : ei < st.edges.length)
    (hact : act ei = false) :
    bucketOk blockOf st (aliasUpdateEdge blockOf st as ei true)
      (fun k => act k || k == ei) := by
  obtain ⟨hc, hp⟩ := hok
  refine ⟨?_, ?_⟩
  · intro b i
    rw [aliasInsert_in_edges]
    dsimp only
    by_cases hb : b = blockOf (getE st ei).2
    · subst hb
      rw [if_pos rfl, cnt_append_singleton]
      by_cases h4 : i = ei
      · subst h4
        have h0 : cnt i (as.in_edges (blockOf (getE st i).2)) = 0 := by
          rw [hc]
          rw [if_neg]
          rintro ⟨-, hx, -⟩
          rw [hact] at hx
          exact Bool.false_ne_true hx
        rw [h0, if_pos rfl, if_pos ⟨hei, by simp, rfl⟩]
      · rw [if_neg (fun h => h4 h.symm), Nat.add_zero, hc]
        have hcond : ((act i || i == ei) = true) ↔ (act i = true) := by
          simp [h4]
        apply if_congr _ rfl rfl
        exact and_congr_right (fun _ => and_congr_left (fun _ => hcond.symm))
    · rw [if_neg hb, hc]
      by_cases h4 : i = ei
      · subst h4
        rw [if_neg (fun hcond => hb hcond.2.2.symm),
          if_neg (fun hcond => hb hcond.2.2.symm)]
      · have hcond : ((act i || i == ei) = true) ↔ (act i = true) := by
          simp [h4]
        apply if_congr _ rfl rfl
        exact and_congr_right (fun _ => and_congr_left (fun _ => hcond.symm))
  · intro i hi hai
    rw [aliasInsert_in_edges, aliasInsert_in_pos]
    dsimp only
    by_cases h4 : i = ei
    · subst h4
      rw [if_pos rfl, if_pos rfl]
      constructor
      · simp
      · exact getD_append_last _ _ _
    · have hai' : act i = true := by
        rw [Bool.or_eq_true] at hai
        rcases hai with h | h
        · exact h
        · exact absurd (by simpa using h) h4
      obtain ⟨hplt, hpget⟩ := hp i hi hai'
      rw [if_neg h4]
      by_cases hbi : blockOf (getE st i).2 = blockOf (getE st ei).2
      · rw [if_pos hbi]
        rw [hbi] at hplt hpget
        constructor
        · rw [List.length_append]
          simp only [List.length_cons, List.length_nil]
          omega
        · rw [getD_append_left _ _ _ _ hplt]
          exact hpget
      · rw [if_neg hbi]
        exact ⟨hplt, hpget⟩

theorem aliasRemove_ok {β : Type} [DecidableEq β] (blockOf : Nat → β)
    (st : GState) (as : AliasState β) (act : Nat → Bool) (ei : Nat)
    (hdir : st.directed = false)
    (hok : bucketOk blockOf st as act) (hei : ei < st.edges.length)
    (hact : act ei = true) :
    bucketOk blockOf st (aliasUpdateEdge blockOf st as ei false)
      (fun k => act k && !(k == ei)) := by
  obtain ⟨hc, hp⟩ := hok
  obtain ⟨hjlt, hjget⟩ := hp ei hei hact
  have hlne : as.in_edges (blockOf (getE st ei).2) ≠ [] := by
    intro h
    rw [h] at hjlt
    simp at hjlt
  have hbackmem : (as.in_edges (blockOf (getE st ei).2)).getLastD 0
      ∈ as.in_edges (blockOf (getE st ei).2) := by
    rw [getLastD_eq_getD]
    refine getD_mem _ _ _ ?_
    have := List.length_pos.mpr hlne
    omega
  have hbackcnt : 0 < cnt ((as.in_edges (blockOf (getE st ei).2)).getLastD 0)
      (as.in_edges (blockOf (getE st ei).2)) := by
    rw [cnt, List.countP_pos]
    exact ⟨_, hbackmem, by simp⟩
  have hbackprop :
      (as.in_edges (blockOf (getE st ei).2)).getLastD 0 < st.edges.length ∧
      act ((as.in_edges (blockOf (getE st ei).2)).getLastD 0) = true ∧
      blockOf (getE st ((as.in_edges (blockOf (getE st ei).2)).getLastD 0)).2
        = blockOf (getE st ei).2 := by
    by_contra hcond
    rw [hc, if_neg hcond] at hbackcnt
    omega
  refine ⟨?_, ?_⟩
  · intro b i
    rw [aliasRemove_in_edges blockOf st as ei hdir]
    dsimp only
    by_cases hb : b = blockOf (getE st ei).2
    · subst hb
      have hsw := cnt_swap_pop (as.in_edges (blockOf (getE st ei).2))
        (as.in_pos ei) i hjlt
      rw [hjget] at hsw
      rw [if_pos rfl]
      by_cases h4 : i = ei
      · subst h4
        have h1 : cnt i (as.in_edges (blockOf (getE st i).2)) = 1 := by
          rw [hc, if_pos ⟨hei, hact, rfl⟩]
        rw [if_pos rfl] at hsw
        rw [if_neg (by rintro ⟨-, hx, -⟩; simp at hx)]
        omega
      · rw [if_neg (fun h => h4 h.symm)] at hsw
        have hcnt : cnt i (((as.in_edges (blockOf (getE st ei).2)).set
              (as.in_pos ei)
              ((as.in_edges (blockOf (getE st ei).2)).getLastD 0)).dropLast)
            = cnt i (as.in_edges (blockOf (getE st ei).2)) := by
          omega
        rw [hcnt, hc]
        have hcond : ((act i && !(i == ei)) = true) ↔ (act i = true) := by
          simp [h4]
        apply if_congr _ rfl rfl
        exact and_congr_right (fun _ => and_congr_left (fun _ => hcond.symm))
    · rw [if_neg hb, hc]
      by_cases h4 : i = ei
      · subst h4
        rw [if_neg (fun hcond => hb hcond.2.2.symm),
          if_neg (fun hcond => hb hcond.2.2.symm)]
      · have hcond : ((act i && !(i == ei)) = true) ↔ (act i = true) := by
          simp [h4]
        apply if_congr _ rfl rfl
        exact and_congr_right (fun _ => and_congr_left (fun _ => hcond.symm))
  · intro i hi hai
    have hai' : act i = true := by
      rw [Bool.and_eq_true] at hai
      exact hai.1
    have hine : i ≠ ei := by
      intro h
      subst h
      rw [Bool.and_eq_true] at hai
      simp at hai
    obtain ⟨hplt, hpget⟩ := hp i hi hai'
    rw [aliasRemove_in_edges blockOf st as ei hdir,
      aliasRemove_in_pos blockOf st as ei hdir]
    dsimp only
    by_cases hbi : blockOf (getE st i).2 = blockOf (getE st ei).2
    · rw [if_pos hbi]
      rw [hbi] at hplt hpget
      by_cases hiback : i = (as.in_edges (blockOf (getE st ei).2)).getLastD 0
      · rw [if_pos hiback]
        have hjne : as.in_pos ei
            ≠ (as.in_edges (blockOf (getE st ei).2)).length - 1 := by
          intro h
          rw [h, ← getLastD_eq_getD] at hjget
          exact hine (by rw [hiback, hjget])
        constructor
        · rw [List.length_dropLast, List.length_set]
          omega
        · rw [getD_dropLast _ _ _ (by rw [List.length_set]; omega),
            getD_set_self _ _ _ _ hjlt]
          exact hiback.symm
      · rw [if_neg hiback]
        have hpne_j : as.in_pos i ≠ as.in_pos ei := by
          intro h
          rw [← h] at hjget
          rw [hpget] at hjget
          exact hine hjget
        have hpne_last : as.in_pos i
            ≠ (as.in_edges (blockOf (getE st ei).2)).length - 1 := by
          intro h
          apply hiback
          rw [← hpget, h, getLastD_eq_getD]
        constructor
        · rw [List.length_dropLast, List.length_set]
          omega
        · rw [getD_dropLast _ _ _ (by rw [List.length_set]; omega),
            getD_set_ne _ _ _ _ _ (fun h => hpne_j h.symm)]
          exact hpget
    · rw [if_neg hbi]
      have hiback : i ≠ (as.in_edges (blockOf (getE st ei).2)).getLastD 0 := by
        intro h
        apply hbi
        rw [h]
        exact hbackprop.2.2
      rw [if_neg hiback]
      exact ⟨hplt, hpget⟩

theorem bucketOk_of_range {β : Type} [DecidableEq β] (blockOf : Nat → β)
    (st : GState) :
    ∀ n, n ≤ st.edges.length →
      bucketOk blockOf st
        ((List.range n).foldl
          (fun as i => aliasUpdateEdge blockOf st as i true) aliasEmptyState)
        (fun i => decide (i < n)) := by
  intro n
  induction n with
  | zero =>
    intro _
    refine ⟨?_, ?_⟩
    · intro b i
      rw [if_neg]
      · rfl
      · rintro ⟨-, hx, -⟩
        exact absurd (of_decide_eq_true hx) (by omega)
    · intro i _ hact
      exact absurd (of_decide_eq_true hact) (by omega)
  | succ n ih =>
    intro hn
    rw [List.range_succ, List.foldl_append, List.foldl_cons, List.foldl_nil]
    have h1 := aliasInsert_ok blockOf st _ (fun i => decide (i < n)) n
      (ih (by omega)) (by omega) (by simp)
    refine bucketOk_congr blockOf st _ _ _ ?_ h1
    intro k
    by_cases h : k < n
    · simp [h, Nat.lt_succ_of_lt h]
    · by_cases h2 : k = n
      · simp [h2]
      · have h3 : ¬ k < n + 1 := by omega
        simp [h, h2, h3]

theorem aliasInit_ok {β : Type} [DecidableEq β] (blockOf : Nat → β)
    (st : GState) : inBucketInv blockOf st (aliasInit blockOf st) := by
  obtain ⟨hc, hp⟩ := bucketOk_of_range blockOf st st.edges.length le_rfl
  unfold aliasInit
  refine ⟨?_, ?_⟩
  · intro b i
    rw [hc b i]
    apply if_congr _ rfl rfl
    constructor
    · rintro ⟨a, -, c⟩
      exact ⟨a, rfl, c⟩
    · rintro ⟨a, -, c⟩
      exact ⟨a, by simp [a], c⟩
  · intro i hi _
    exact hp i hi (by simp [hi])

theorem aliasStep_preserves {β : Type} [DecidableEq β] (blockOf : Nat → β)
    (st : GState) (as : AliasState β) (ei : Nat) (et : Nat × Bool)
    (sl pe : Bool) (hdir : st.directed = false)
    (hinv : inBucketInv blockOf st as)
    (hei : ei < st.edges.length) (het : et.1 < st.edges.length)
    (hacc : (rewireBaseStep (aliasUpdateEdge blockOf) st as ei et sl pe).1
      = true) :
    inBucketInv blockOf
      (rewireBaseStep (aliasUpdateEdge blockOf) st as ei et sl pe).2.1
      (rewireBaseStep (aliasUpdateEdge blockOf) st as ei et sl pe).2.2 := by
  obtain ⟨hne, hst, hss⟩ :=
    rewireBaseStep_true_elim (aliasUpdateEdge blockOf) st as ei et sl pe hacc
  have hne' : et.1 ≠ ei := fun h => hne h.symm
  rw [hst, hss]
  have h1 := aliasRemove_ok blockOf st as (fun _ => true) ei hdir hinv hei rfl
  have h2 := aliasRemove_ok blockOf st _ _ et.1 hdir h1 het
    (by dsimp only; simp [hne'])
  have hfr : ∀ i, i < st.edges.length →
      ((fun k => (true && !(k == ei)) && !(k == et.1)) i) = true →
      getE (swap_target st ei et) i = getE st i := by
    intro i hi hact
    dsimp only at hact
    rw [Bool.and_eq_true, Bool.and_eq_true] at hact
    have hi1 : i ≠ ei := by
      intro h
      subst h
      simp at hact
    have hi2 : i ≠ et.1 := by
      intro h
      rw [h] at hact
      simp at hact
    exact swap_target_frame st ei et hne i hi1 hi2
  have h3 := bucketOk_frame blockOf st (swap_target st ei et) _ _
    (swap_target_length st ei et) hfr h2
  have hei2 : ei < (swap_target st ei et).edges.length := by
    rw [swap_target_length]
    exact hei
  have het2 : et.1 < (swap_target st ei et).edges.length := by
    rw [swap_target_length]
    exact het
  have h4 := aliasInsert_ok blockOf (swap_target st ei et) _ _ ei h3
    (by exact hei2) (by simp)
  have h5 := aliasInsert_ok blockOf (swap_target st ei et) _ _ et.1 h4
    (by exact het2) (by simp [hne'])
  refine bucketOk_congr blockOf (swap_target st ei et) _ _ _ ?_ h5
  intro k
  by_cases hk1 : k = ei
  · simp [hk1]
  · by_cases hk2 : k = et.1
    · simp [hk2]
    · simp [hk1, hk2]

/-- C2 (amended): on undirected graphs the Alias strategy's `_in_edges` /
`_in_pos` bookkeeping is exact — the constructor establishes it and every
accepted move preserves it: for every block `b`, `in_edges[b]` contains
exactly one occurrence of every slot `i` with
`block_of(target(edges[i])) = b` and nothing else, with `in_pos[i]` its
position.  (For directed graphs, and for the undirected `out_edges`
buckets, the remove hook does not pop entries while the insert hook still
appends, so those buckets accumulate stale or duplicate entries and the
claimed agreement fails — see the counterexample.) -/
theorem c2_alias_in_bucket_exactness {β : Type} [DecidableEq β]
    (blockOf : Nat → β) (st : GState) (hdir : st.directed = false) :
    inBucketInv blockOf st (aliasInit blockOf st) ∧
    (∀ (as : AliasState β) ei et sl pe, inBucketInv blockOf st as →
      ei < st.edges.length → et.1 < st.edges.length →
      (rewireBaseStep (aliasUpdateEdge blockOf) st as ei et sl pe).1 = true →
      inBucketInv blockOf
        (rewireBaseStep (aliasUpdateEdge blockOf) st as ei et sl pe).2.1
        (rewireBaseStep (aliasUpdateEdge blockOf) st as ei et sl pe).2.2) :=
  ⟨aliasInit_ok blockOf st,
   fun as ei et sl pe hinv hei het hacc =>
     aliasStep_preserves blockOf st as ei et sl pe hdir hinv hei het hacc⟩

/-- C2 counterexample: on the directed graph 0→1, 2→3 with
`block_of = id`, the accepted Alias move swapping slots 0 and 1 leaves the
stale entry 0 in `in_edges[1]` (the remove hook is a no-op for directed
graphs while the insert hook appends), although the new target of slot 0
has block 3 ≠ 1 — `in_edges[1]` does not contain exactly the slots whose
target block is 1. -/
theorem c2_counterexample :
    (rewireBaseStep (aliasUpdateEdge (fun v : Nat => v))
        ⟨true, 4, [(0,1),(2,3)]⟩
        (aliasInit (fun v : Nat => v) ⟨true, 4, [(0,1),(2,3)]⟩)
        0 (1, false) true true).1 = true ∧
    0 ∈ (rewireBaseStep (aliasUpdateEdge (fun v : Nat => v))
        ⟨true, 4, [(0,1),(2,3)]⟩
        (aliasInit (fun v : Nat => v) ⟨true, 4, [(0,1),(2,3)]⟩)
        0 (1, false) true true).2.2.in_edges 1 ∧
    (fun v : Nat => v) ((getE (rewireBaseStep (aliasUpdateEdge (fun v : Nat => v))
        ⟨true, 4, [(0,1),(2,3)]⟩
        (aliasInit (fun v : Nat => v) ⟨true, 4, [(0,1),(2,3)]⟩)
        0 (1, false) true true).2.1 0).2) ≠ 1 := by
  refine ⟨by decide, by decide, by decide⟩

/-- Witness for C2: on the undirected graph 0–1, 2–3, after the accepted
move swapping slots 0 and 1, the preserved invariant yields that bucket 3
holds slot 0 exactly once (the new target of slot 0 is vertex 3). -/
theorem c2_alias_in_bucket_exactness_witness :
    cnt 0 ((rewireBaseStep (aliasUpdateEdge (fun v : Nat => v))
        ⟨false, 4, [(0,1),(2,3)]⟩
        (aliasInit (fun v : Nat => v) ⟨false, 4, [(0,1),(2,3)]⟩)
        0 (1, false) true true).2.2.in_edges 3) = 1 := by
  have h := c2_alias_in_bucket_exactness (fun v : Nat => v)
    ⟨false, 4, [(0,1),(2,3)]⟩ rfl
  have h2 := h.2 (aliasInit (fun v : Nat => v) ⟨false, 4, [(0,1),(2,3)]⟩)
    0 (1, false) true true h.1 (by decide) (by decide) (by decide)
  have h3 := (h2 : bucketOk (fun v : Nat => v) _ _ _).1 3 0
  rw [h3, if_pos]
  refine ⟨by decide, rfl, by decide⟩
